import Mathlib

/-!
Verification of the two algorithmic components of the `mushroom` repository:

* `ActionRegressor` (`PyPi/approximators/action_regressor.py`): one regression
  sub-model per discrete action, with row dispatch in `fit` and `predict`.
* `Tiles` (`mushroom/features/tiles/tiles.py`): rectangular tile coding with an
  out-of-range sentinel, plus the `generate` factory for offset tilings.

Numpy float arrays are embedded as lists of rationals (exact arithmetic);
Python's `None` sentinel becomes `Option`; Python's arbitrary-precision ints
become `ℤ`/`ℕ`.
-/

namespace Mushroom

/-- A tile coder, as built by `Tiles.__init__` after argument normalisation:
`_range` is the list of per-dimension `[low, high]` pairs, `_n_tiles` the list
of per-dimension tile counts (same length), `_state_components` the optional
coordinate selector. -/
structure Tiles where
  ranges : List (ℚ × ℚ)
  n_tiles : List ℕ
  state_components : Option (List ℕ)
deriving Repr, DecidableEq

/-- `Tiles._size`, computed in `__init__` by `self._size = 1` followed by
`for s in self._n_tiles: self._size *= s`. -/
def Tiles.size (t : Tiles) : ℕ :=
  t.n_tiles.foldl (fun acc s => acc * s) 1

/-- The loop of `Tiles.__call__`: iterate over `zip(self._range, self._n_tiles)`
paired with the coordinates `x[i]`, carrying `multiplier` and `tile_index`.
In range: `tile_index += int(floor(N * (x[i] - lo) / (hi - lo))) * multiplier;`
`multiplier *= N`.  Out of range: `tile_index = None; break`. -/
def tileLoop : List (ℚ × ((ℚ × ℚ) × ℕ)) → ℕ → ℤ → Option ℤ
  | [], _, tile_index => some tile_index
  | (v, ((lo, hi), N)) :: rest, multiplier, tile_index =>
    if lo ≤ v ∧ v < hi then
      tileLoop rest (multiplier * N)
        (tile_index + ⌊(N : ℚ) * (v - lo) / (hi - lo)⌋ * multiplier)
    else
      none

/-- `Tiles.__call__(x)`: optionally project `x` onto `state_components`, then
run the accumulation loop with `multiplier = 1`, `tile_index = 0`. -/
def Tiles.call (t : Tiles) (x : List ℚ) : Option ℤ :=
  let x' := match t.state_components with
    | some cs => cs.map (fun c => x.getD c 0)
    | none => x
  tileLoop (x'.zip (t.ranges.zip t.n_tiles)) 1 0

/-- The per-dimension offset vector of `Tiles.generate`:
`offset = (high - low) / (np.array(n_tiles) * n_tilings - n_tilings + 1.)`,
element-wise. -/
def genOffsetList (n_tilings : ℕ) (n_tiles : List ℕ) (low high : List ℚ) :
    List ℚ :=
  List.zipWith
    (fun (lh : ℚ × ℚ) (N : ℕ) =>
      (lh.2 - lh.1) / ((N : ℚ) * n_tilings - n_tilings + 1))
    (low.zip high) n_tiles

/-- `Tiles.generate(n_tilings, n_tiles, low, high)`: per-dimension
`offset = (high - low) / (n_tiles * n_tilings - n_tilings + 1)`, then for each
tiling index `i`, range `[low - (n_tilings - 1 - i) * offset, high + i * offset]`
per dimension, with the shared `n_tiles` and no `state_components`. -/
def Tiles.generate (n_tilings : ℕ) (n_tiles : List ℕ) (low high : List ℚ) :
    List Tiles :=
  let offset : List ℚ := genOffsetList n_tilings n_tiles low high
  (List.range n_tilings).map (fun i =>
    let x_min := List.zipWith (fun l o => l - ((n_tilings - 1 - i : ℕ) : ℚ) * o) low offset
    let x_max := List.zipWith (fun h o => h + (i : ℚ) * o) high offset
    { ranges := x_min.zip x_max, n_tiles := n_tiles, state_components := none })

/-! ### ActionRegressor -/

/-- An n-dimensional numpy array, abstracted to its shape and flat data, as
needed by `ActionRegressor.__init__`, which only reads `shape[1]` and
`shape[0]` of `discrete_actions`. -/
structure NDArray where
  shape : List ℕ
  data : List ℚ
deriving Repr, DecidableEq

/-- The `ActionRegressor` state after a successful `__init__`, specialised to
the 2-D case used by `fit`/`predict`: `_discrete_actions` as a list of rows,
`_action_dim = _discrete_actions.shape[1]`, and the list of sub-models.
Sub-models are opaque values of a type `M`; `deepcopy` of an immutable value
is the value itself, and mutation is replacement in the `models` list. -/
structure ActionRegressor (M : Type) where
  discrete_actions : List (List ℚ)
  action_dim : ℕ
  models : List M
deriving Repr, DecidableEq

/-- `ActionRegressor.__init__(model, discrete_actions)`:
`self._action_dim = discrete_actions.shape[1]` raises `IndexError` when the
shape tuple has fewer than two entries; otherwise `self.models` receives one
`deepcopy(model)` per iteration of `range(discrete_actions.shape[0])`. -/
def ActionRegressor.init {M : Type} (model : M) (discrete_actions : NDArray) :
    Except String (ℕ × List M) :=
  match discrete_actions.shape with
  | n_rows :: dim :: _ => .ok (dim, List.replicate n_rows model)
  | _ => .error "IndexError: tuple index out of range"

/-- The row-selection mask of `fit`/`predict`:
`(x[:, -action_dim:] == action)[:, 0]`.  The slice `x[:, -action_dim:]` keeps
the trailing `action_dim` columns; comparing with `action` is element-wise,
and `[:, 0]` keeps only the first column of the comparison, i.e. row `r` is
selected iff `x[r][len(x[r]) - action_dim] == action[0]`. -/
def matchMask (action_dim : ℕ) (action : List ℚ) (x : List (List ℚ)) :
    List Bool :=
  x.map (fun row =>
    decide (((row.drop (row.length - action_dim)).getD 0 0) = action.getD 0 0))

/-- `np.argwhere(mask).ravel()`: the indices of the rows selected by the mask,
in increasing order. -/
def matchIdxs (action_dim : ℕ) (action : List ℚ) (x : List (List ℚ)) :
    List ℕ :=
  (List.range x.length).filter (fun r =>
    (matchMask action_dim action x).getD r false)

/-- `x[r, :-action_dim]`: the leading columns of a row, action columns
stripped. -/
def leadCols (action_dim : ℕ) (row : List ℚ) : List ℚ :=
  row.take (row.length - action_dim)

/-- `ActionRegressor.fit(x, y)`: for each sub-model index `i` (paired with its
action row), compute `idxs`; when non-empty, replace `self.models[i]` by the
result of fitting it on `x[idxs, :-action_dim]` against `y[idxs]`.  The
sub-model's own `fit` is the opaque collaborator `fitFn`. -/
def ActionRegressor.fit {M : Type}
    (fitFn : M → List (List ℚ) → List ℚ → M)
    (ar : ActionRegressor M) (x : List (List ℚ)) (y : List ℚ) :
    ActionRegressor M :=
  { ar with
    models := (ar.models.zip ar.discrete_actions).map (fun mi =>
      let idxs := matchIdxs ar.action_dim mi.2 x
      if idxs.isEmpty then mi.1
      else fitFn mi.1 (idxs.map (fun r => leadCols ar.action_dim (x.getD r [])))
        (idxs.map (fun r => y.getD r 0))) }

/-- `predictions[idxs] = vals`: scatter the values into the listed positions. -/
def scatter (res : List ℚ) (idxs : List ℕ) (vals : List ℚ) : List ℚ :=
  (idxs.zip vals).foldl (fun r jv => r.set jv.1 jv.2) res

/-- One iteration of the `predict` loop, for the pair `mi` of a sub-model and
its action row: compute `idxs`; when non-empty, overwrite `predictions[idxs]`
with the sub-model's prediction on the selected rows' leading columns. -/
def predictStep {M : Type} (predictFn : M → List (List ℚ) → List ℚ)
    (action_dim : ℕ) (x : List (List ℚ)) (res : List ℚ) (mi : M × List ℚ) :
    List ℚ :=
  let idxs := matchIdxs action_dim mi.2 x
  if idxs.isEmpty then res
  else scatter res idxs
    (predictFn mi.1 (idxs.map (fun r => leadCols action_dim (x.getD r []))))

/-- `ActionRegressor.predict(x)`: start from `np.zeros(x.shape[0])`; for each
sub-model index `i` with non-empty `idxs`, overwrite `predictions[idxs]` with
`self.models[i].predict(x[idxs, :-action_dim])`.  The sub-model's own
`predict` is the opaque collaborator `predictFn`. -/
def ActionRegressor.predict {M : Type}
    (predictFn : M → List (List ℚ) → List ℚ)
    (ar : ActionRegressor M) (x : List (List ℚ)) : List ℚ :=
  (ar.models.zip ar.discrete_actions).foldl
    (predictStep predictFn ar.action_dim x)
    (List.replicate x.length 0)

/-- The matching relation the SPEC describes (claim side, for comparison with
the code's `matchMask`): the trailing `action_dim` columns of a row are
element-wise equal to the whole action vector. -/
def specRowMatches (action_dim : ℕ) (action : List ℚ) (row : List ℚ) : Bool :=
  decide (row.drop (row.length - action_dim) = action)

/-! ### Spec-side tile-index formula and concrete instances -/

/-- Default entry when indexing a zipped `(coordinate, (range, tile count))`
list. -/
def dEntry : ℚ × ((ℚ × ℚ) × ℕ) := (0, ((0, 0), 0))

/-- The per-dimension component index of one entry:
`floor(N * (value - lo) / (hi - lo))`. -/
def entryComponent (e : ℚ × ((ℚ × ℚ) × ℕ)) : ℤ :=
  ⌊(e.2.2 : ℚ) * (e.1 - e.2.1.1) / (e.2.1.2 - e.2.1.1)⌋

/-- Whether the entry's coordinate lies in its half-open range `[lo, hi)`. -/
def entryInRange (e : ℚ × ((ℚ × ℚ) × ℕ)) : Prop :=
  e.2.1.1 ≤ e.1 ∧ e.1 < e.2.1.2

instance (e : ℚ × ((ℚ × ℚ) × ℕ)) : Decidable (entryInRange e) := by
  unfold entryInRange; infer_instance

/-- The spec's description of the tile index as a closed formula: mixed-radix
composition of the per-dimension component indices in declared dimension
order, the first-declared dimension fastest-varying (dimension `i` is weighted
by the product of the tile counts of dimensions `0..i-1`). -/
def specTileIndex (l : List (ℚ × ((ℚ × ℚ) × ℕ))) : ℤ :=
  ∑ i ∈ Finset.range l.length,
    entryComponent (l.getD i dEntry) *
      ∏ j ∈ Finset.range i, ((l.getD j dEntry).2.2 : ℤ)

/-- The per-dimension offset `Tiles.generate` computes:
`(high - low) / (n_tiles * n_tilings - n_tilings + 1)`. -/
def genOffset (n_tilings : ℕ) (n_tiles : List ℕ) (low high : List ℚ) (d : ℕ) : ℚ :=
  (high.getD d 0 - low.getD d 0) / ((n_tiles.getD d 0 : ℚ) * n_tilings - n_tilings + 1)

/-- Single-dimension tiling over `[0, 10)` with 5 tiles (spec §8, property 3). -/
def tiles1d : Tiles := { ranges := [(0, 10)], n_tiles := [5], state_components := none }

/-- Two-dimensional tiling over `[0,2] × [0,2]` with `2 × 2` tiles
(spec §8, property 4). -/
def tiles2d : Tiles := { ranges := [(0, 2), (0, 2)], n_tiles := [2, 2], state_components := none }

/-- Default `Tiles` value used with `List.getD`. -/
def dTiles : Tiles := { ranges := [], n_tiles := [], state_components := none }

/-! ## Lemmas about the tile-coding loop -/

/-- If some processed entry is out of range, the loop returns the sentinel. -/
lemma tileLoop_eq_none (l : List (ℚ × ((ℚ × ℚ) × ℕ))) (i : ℕ) (hi : i < l.length)
    (h : ¬ entryInRange (l.getD i dEntry)) :
    ∀ (mult : ℕ) (acc : ℤ), tileLoop l mult acc = none := by
  induction l generalizing i with
  | nil => exact absurd hi (by simp)
  | cons e rest ih =>
    obtain ⟨v, ⟨lo, hi'⟩, N⟩ := e
    intro mult acc
    match i with
    | 0 =>
      simp only [List.getD_cons_zero, entryInRange] at h
      simp only [tileLoop, if_neg h]
    | i + 1 =>
      simp only [List.getD_cons_succ] at h
      simp only [List.length_cons, Nat.add_lt_add_iff_right] at hi
      by_cases hin : lo ≤ v ∧ v < hi'
      · simp only [tileLoop, if_pos hin]
        exact ih i hi h _ _
      · simp only [tileLoop, if_neg hin]

/-- On a cons, the spec formula peels off the head component: the head is the
fastest-varying digit, and the tail's weight is multiplied by the head's tile
count. -/
lemma specTileIndex_cons (e : ℚ × ((ℚ × ℚ) × ℕ)) (l : List (ℚ × ((ℚ × ℚ) × ℕ))) :
    specTileIndex (e :: l) = entryComponent e + (e.2.2 : ℤ) * specTileIndex l := by
  unfold specTileIndex
  rw [List.length_cons, Finset.sum_range_succ']
  simp only [List.getD_cons_succ, List.getD_cons_zero, Finset.prod_range_succ',
    List.getD_cons_zero, Finset.range_zero, Finset.prod_empty, one_mul, mul_one]
  rw [Finset.mul_sum, add_comm]
  congr 1
  refine Finset.sum_congr rfl (fun i _ => by ring)

/-- When every processed entry is in range, the loop computes the spec's
mixed-radix formula, scaled by the incoming multiplier and shifted by the
incoming accumulator. -/
lemma tileLoop_eq_specTileIndex (l : List (ℚ × ((ℚ × ℚ) × ℕ)))
    (h : ∀ i, i < l.length → entryInRange (l.getD i dEntry)) :
    ∀ (mult : ℕ) (acc : ℤ), tileLoop l mult acc = some (acc + mult * specTileIndex l) := by
  induction l with
  | nil => intro mult acc; simp [tileLoop, specTileIndex]
  | cons e rest ih =>
    intro mult acc
    obtain ⟨v, ⟨lo, hi'⟩, N⟩ := e
    have h0 : entryInRange ((v, ((lo, hi'), N))) := by
      have := h 0 (by simp)
      simpa using this
    have h0' : lo ≤ v ∧ v < hi' := h0
    have hrest : ∀ i, i < rest.length → entryInRange (rest.getD i dEntry) := by
      intro i hi
      have := h (i + 1) (by simpa using Nat.add_lt_add_right hi 1)
      simpa using this
    rw [tileLoop, if_pos h0', ih hrest (mult * N)]
    rw [specTileIndex_cons]
    congr 1
    have : entryComponent ((v, ((lo, hi'), N))) = ⌊(N : ℚ) * (v - lo) / (hi' - lo)⌋ := rfl
    rw [this]
    push_cast
    ring

/-- In-range bounds on one component index: `0 ≤ floor(N (v - lo)/(hi - lo)) < N`
whenever `lo ≤ v < hi` and `0 < N`. -/
lemma entryComponent_bounds (v lo hi' : ℚ) (N : ℕ) (hN : 0 < N)
    (hlo : lo ≤ v) (hhi : v < hi') :
    0 ≤ ⌊(N : ℚ) * (v - lo) / (hi' - lo)⌋ ∧ ⌊(N : ℚ) * (v - lo) / (hi' - lo)⌋ < (N : ℤ) := by
  have hw : (0 : ℚ) < hi' - lo := by linarith
  constructor
  · apply Int.floor_nonneg.2
    apply div_nonneg _ (le_of_lt hw)
    have : (0 : ℚ) ≤ (N : ℚ) := by positivity
    nlinarith
  · apply Int.floor_lt.2
    rw [div_lt_iff₀ hw]
    push_cast
    have hNq : (0 : ℚ) < (N : ℚ) := by exact_mod_cast hN
    nlinarith

/-- Loop-invariant bound: starting from `0 ≤ acc < mult`, a successful run of
the loop over entries with positive tile counts returns an index in
`[0, mult * ∏ N)`. -/
lemma tileLoop_bound : ∀ (l : List (ℚ × ((ℚ × ℚ) × ℕ))) (mult : ℕ) (acc k : ℤ),
    (∀ e ∈ l, 0 < e.2.2) → 0 ≤ acc → acc < (mult : ℤ) →
    tileLoop l mult acc = some k →
    0 ≤ k ∧ k < (mult : ℤ) * (((l.map (fun e => e.2.2)).prod : ℕ) : ℤ)
  | [], mult, acc, k, _, hacc0, hacc1, hk => by
    simp only [tileLoop, Option.some.injEq] at hk
    subst hk
    simpa using ⟨hacc0, by simpa using hacc1⟩
  | (v, ((lo, hi'), N)) :: rest, mult, acc, k, hpos, hacc0, hacc1, hk => by
    have hN : 0 < N := hpos (v, ((lo, hi'), N)) (by simp)
    rw [tileLoop] at hk
    by_cases hin : lo ≤ v ∧ v < hi'
    · rw [if_pos hin] at hk
      have hc := entryComponent_bounds v lo hi' N hN hin.1 hin.2
      set c := ⌊(N : ℚ) * (v - lo) / (hi' - lo)⌋ with hcdef
      have hmult0 : (0 : ℤ) ≤ (mult : ℤ) := by positivity
      have hacc0' : 0 ≤ acc + c * mult :=
        add_nonneg hacc0 (mul_nonneg hc.1 hmult0)
      have hacc1' : acc + c * mult < ((mult * N : ℕ) : ℤ) := by
        push_cast
        nlinarith [hc.1, hc.2]
      have := tileLoop_bound rest (mult * N) (acc + c * mult) k
        (fun e he => hpos e (List.mem_cons_of_mem _ he)) hacc0' hacc1' hk
      refine ⟨this.1, ?_⟩
      calc k < ((mult * N : ℕ) : ℤ) * (((rest.map (fun e => e.2.2)).prod : ℕ) : ℤ) := this.2
        _ = (mult : ℤ) * ((((v, ((lo, hi'), N)) :: rest).map (fun e => e.2.2)).prod : ℕ) := by
          simp only [List.map_cons, List.prod_cons]
          push_cast
          ring
    · rw [if_neg hin] at hk
      exact absurd hk (by simp)

/-- Mapping `Prod.snd` over a zip recovers a prefix of the second list. -/
lemma map_snd_zip_eq_take : ∀ {α β : Type} (a : List α) (b : List β),
    (a.zip b).map Prod.snd = b.take a.length
  | _, _, [], b => by simp
  | _, _, _ :: _, [] => by simp
  | _, _, x :: xs, y :: ys => by
    simp only [List.zip_cons_cons, List.map_cons, List.length_cons, List.take_succ_cons,
      List.cons.injEq, true_and]
    exact map_snd_zip_eq_take xs ys

/-- Mapping the second component of the second component over a zip. -/
lemma map_snd_snd_zip : ∀ {α β γ : Type} (a : List α) (b : List (β × γ)),
    (a.zip b).map (fun e => e.2.2) = (b.map Prod.snd).take a.length
  | _, _, _, [], _ => by simp
  | _, _, _, _ :: _, [] => by simp
  | _, _, _, x :: xs, y :: ys => by
    simp only [List.zip_cons_cons, List.map_cons, List.length_cons, List.take_succ_cons]
    exact congrArg _ (map_snd_snd_zip xs ys)

/-- A product over a list of positives is at least 1. -/
lemma one_le_prod_of_pos : ∀ (l : List ℕ), (∀ m ∈ l, 0 < m) → 1 ≤ l.prod
  | [], _ => le_refl _
  | x :: xs, h => by
    rw [List.prod_cons]
    have hx : 1 ≤ x := h x (by simp)
    have hxs : 1 ≤ xs.prod := one_le_prod_of_pos xs (fun m hm => h m (List.mem_cons_of_mem _ hm))
    calc 1 = 1 * 1 := by ring
      _ ≤ x * xs.prod := Nat.mul_le_mul hx hxs

/-- Dropping a suffix cannot increase a product of positives. -/
lemma prod_take_le_prod (l : List ℕ) (n : ℕ) (h : ∀ m ∈ l, 0 < m) :
    (l.take n).prod ≤ l.prod := by
  conv_rhs => rw [← List.take_append_drop n l]
  rw [List.prod_append]
  have : 1 ≤ (l.drop n).prod :=
    one_le_prod_of_pos _ (fun m hm => h m (List.mem_of_mem_drop hm))
  exact Nat.le_mul_of_pos_right _ (by omega)

/-- `Tiles._size` equals the product of the per-dimension tile counts. -/
lemma Tiles.size_eq_prod (t : Tiles) : t.size = t.n_tiles.prod := by
  rw [Tiles.size, List.prod_eq_foldl]

/-! ## Claim theorems: tile coding -/

/-- **C10.** For every tile coder whose per-dimension ranges satisfy `lo < hi`
and whose tile counts are positive, every evaluation that does not return the
sentinel yields an index in `[0, size)`, where `size` is the product of the
per-dimension tile counts (computed by `Tiles.__init__` as a running product). -/
theorem tiles_call_index_lt_size (t : Tiles) (x : List ℚ) (k : ℤ)
    (hN : ∀ N ∈ t.n_tiles, 0 < N) (_hr : ∀ p ∈ t.ranges, p.1 < p.2)
    (hk : t.call x = some k) : 0 ≤ k ∧ k < (t.size : ℤ) := by
  clear _hr
  rw [Tiles.call] at hk
  set x' : List ℚ := match t.state_components with
    | some cs => cs.map (fun c => x.getD c 0)
    | none => x with hx'
  set l := x'.zip (t.ranges.zip t.n_tiles) with hl
  have hpos : ∀ e ∈ l, 0 < e.2.2 := by
    intro e he
    obtain ⟨v, rn⟩ := e
    have h2 : rn ∈ t.ranges.zip t.n_tiles := (List.of_mem_zip he).2
    obtain ⟨r, N⟩ := rn
    exact hN N (List.of_mem_zip h2).2
  have hb := tileLoop_bound l 1 0 k hpos (le_refl 0) (by norm_num) hk
  obtain ⟨hk0, hklt⟩ := hb
  rw [Nat.cast_one, one_mul] at hklt
  refine ⟨hk0, lt_of_lt_of_le hklt ?_⟩
  · have hmap : l.map (fun e => e.2.2) =
        (t.n_tiles.take t.ranges.length).take x'.length := by
      rw [hl, map_snd_snd_zip, map_snd_zip_eq_take]
    rw [hmap, Tiles.size_eq_prod]
    have h1 : ((t.n_tiles.take t.ranges.length).take x'.length).prod ≤
        (t.n_tiles.take t.ranges.length).prod :=
      prod_take_le_prod _ _ (fun m hm => hN m (List.mem_of_mem_take hm))
    have h2 : (t.n_tiles.take t.ranges.length).prod ≤ t.n_tiles.prod :=
      prod_take_le_prod _ _ hN
    exact_mod_cast le_trans h1 h2

/-- Witness for C10 at a concrete tiling and point. -/
theorem tiles_call_index_lt_size_witness :
    (0 : ℤ) ≤ 3 ∧ (3 : ℤ) < (tiles2d.size : ℤ) :=
  tiles_call_index_lt_size tiles2d [3/2, 3/2] 3 (by decide) (by decide)
    (by norm_num [Tiles.call, tiles2d, tileLoop])

/-- Indexing into the `(coordinate, (range, tile count))` zip. -/
lemma zip3_getD (x : List ℚ) (rs : List (ℚ × ℚ)) (ns : List ℕ) (i : ℕ)
    (h1 : i < x.length) (h2 : i < rs.length) (h3 : i < ns.length) :
    (x.zip (rs.zip ns)).getD i dEntry =
      (x.getD i 0, (rs.getD i (0, 0), ns.getD i 0)) := by
  have hlen2 : i < (rs.zip ns).length := by
    rw [List.length_zip]; omega
  have hlen : i < (x.zip (rs.zip ns)).length := by
    rw [List.length_zip, List.length_zip]; omega
  rw [List.getD_eq_getElem _ _ hlen, List.getD_eq_getElem _ _ h1,
    List.getD_eq_getElem _ _ h2, List.getD_eq_getElem _ _ h3]
  simp [List.getElem_zip]

/-- **C3.** If a considered coordinate falls outside its half-open range
`[lo, hi)`, evaluation returns the sentinel `none`; later dimensions are never
inspected (any input agreeing on coordinates `0..i` yields the same sentinel),
and on the single-dimension coder over `[0, 10)` with 5 tiles the inputs
`0.0, 1.9, 2.0, 3.9, 9.9, 10.0, -0.1` produce
`0, 0, 1, 1, 4, none, none` respectively. -/
theorem tiles_call_out_of_range_sentinel :
    (∀ (t : Tiles) (x x' : List ℚ) (i : ℕ), t.state_components = none →
      i < t.ranges.length → i < t.n_tiles.length → i < x.length → i < x'.length →
      (∀ j, j ≤ i → x.getD j 0 = x'.getD j 0) →
      ¬ ((t.ranges.getD i (0, 0)).1 ≤ x.getD i 0 ∧
          x.getD i 0 < (t.ranges.getD i (0, 0)).2) →
      t.call x = none ∧ t.call x' = none)
    ∧ tiles1d.call [0] = some 0 ∧ tiles1d.call [19/10] = some 0
    ∧ tiles1d.call [2] = some 1 ∧ tiles1d.call [39/10] = some 1
    ∧ tiles1d.call [99/10] = some 4
    ∧ tiles1d.call [10] = none ∧ tiles1d.call [-1/10] = none := by
  refine ⟨?_, ?_, ?_, ?_, ?_, ?_, ?_, ?_⟩
  · intro t x x' i hsc h1 h2 h3 h3' hagree hout
    constructor
    · simp only [Tiles.call, hsc]
      apply tileLoop_eq_none _ i
      · rw [List.length_zip, List.length_zip]; omega
      · rw [zip3_getD x t.ranges t.n_tiles i h3 h1 h2]
        exact hout
    · simp only [Tiles.call, hsc]
      apply tileLoop_eq_none _ i
      · rw [List.length_zip, List.length_zip]; omega
      · rw [zip3_getD x' t.ranges t.n_tiles i h3' h1 h2]
        rw [← hagree i (le_refl i)]
        exact hout
  all_goals norm_num [Tiles.call, tiles1d, tileLoop]

/-- Witness for C3's universal part at the out-of-range input `10.0`. -/
theorem tiles_call_out_of_range_sentinel_witness :
    tiles1d.call [10] = none ∧ tiles1d.call [10] = none :=
  tiles_call_out_of_range_sentinel.1 tiles1d [10] [10] 0 rfl
    (by decide) (by decide) (by decide) (by decide)
    (by intro j hj; rfl) (by norm_num [tiles1d])

/-- **C2.** For recognized inputs (all considered coordinates in range), the
returned index is the mixed-radix composition, in declared dimension order
with the first dimension fastest-varying, of the per-dimension components
`floor(N * (value - lo) / (hi - lo))`; in particular the 2-D coder over
`[0,2] × [0,2]` with `2 × 2` tiles maps `(1.5, 1.5)` to 3 and `(0.5, 1.5)`
to 2. -/
theorem tiles_call_eq_mixed_radix :
    (∀ (t : Tiles) (x : List ℚ), t.state_components = none →
      x.length = t.ranges.length → t.n_tiles.length = t.ranges.length →
      (∀ i, i < t.ranges.length →
        (t.ranges.getD i (0, 0)).1 ≤ x.getD i 0 ∧
          x.getD i 0 < (t.ranges.getD i (0, 0)).2) →
      t.call x = some (∑ i ∈ Finset.range t.ranges.length,
        ⌊(t.n_tiles.getD i 0 : ℚ) * (x.getD i 0 - (t.ranges.getD i (0, 0)).1) /
            ((t.ranges.getD i (0, 0)).2 - (t.ranges.getD i (0, 0)).1)⌋ *
          ∏ j ∈ Finset.range i, (t.n_tiles.getD j 0 : ℤ)))
    ∧ tiles2d.call [3/2, 3/2] = some 3 ∧ tiles2d.call [1/2, 3/2] = some 2 := by
  refine ⟨?_, ?_, ?_⟩
  · intro t x hsc hlx hln hin
    simp only [Tiles.call, hsc]
    set l := x.zip (t.ranges.zip t.n_tiles) with hl
    have hlen : l.length = t.ranges.length := by
      rw [hl, List.length_zip, List.length_zip]; omega
    have hentry : ∀ i, i < t.ranges.length → l.getD i dEntry =
        (x.getD i 0, (t.ranges.getD i (0, 0), t.n_tiles.getD i 0)) :=
      fun i hi => zip3_getD x _ _ i (by omega) hi (by omega)
    have hrange : ∀ i, i < l.length → entryInRange (l.getD i dEntry) := by
      intro i hi
      rw [hlen] at hi
      rw [hentry i hi]
      exact hin i hi
    rw [tileLoop_eq_specTileIndex l hrange 1 0]
    congr 1
    rw [zero_add, Nat.cast_one, one_mul]
    unfold specTileIndex
    rw [hlen]
    refine Finset.sum_congr rfl (fun i hi => ?_)
    rw [Finset.mem_range] at hi
    rw [hentry i hi]
    congr 1
    refine Finset.prod_congr rfl (fun j hj => ?_)
    rw [Finset.mem_range] at hj
    rw [hentry j (lt_trans hj hi)]
  · norm_num [Tiles.call, tiles2d, tileLoop]
  · norm_num [Tiles.call, tiles2d, tileLoop]

/-- Witness for C2's universal part at the concrete point `(1.5, 1.5)`. -/
theorem tiles_call_eq_mixed_radix_witness :
    tiles2d.call [3/2, 3/2] = some (∑ i ∈ Finset.range tiles2d.ranges.length,
      ⌊(tiles2d.n_tiles.getD i 0 : ℚ) *
          (([(3/2 : ℚ), 3/2]).getD i 0 - (tiles2d.ranges.getD i (0, 0)).1) /
          ((tiles2d.ranges.getD i (0, 0)).2 - (tiles2d.ranges.getD i (0, 0)).1)⌋ *
        ∏ j ∈ Finset.range i, (tiles2d.n_tiles.getD j 0 : ℤ)) :=
  tiles_call_eq_mixed_radix.1 tiles2d [3/2, 3/2] rfl (by decide) (by decide)
    (by
      intro i hi
      have h2 : i < 2 := by simpa [tiles2d] using hi
      interval_cases i <;> norm_num [tiles2d])

/-! ## Lemmas about the tiling factory -/

lemma genOffsetList_length (T : ℕ) (nt : List ℕ) (low high : List ℚ)
    (h1 : low.length = nt.length) (h2 : high.length = nt.length) :
    (genOffsetList T nt low high).length = nt.length := by
  simp only [genOffsetList, List.length_zipWith, List.length_zip]
  omega

lemma genOffsetList_getD (T : ℕ) (nt : List ℕ) (low high : List ℚ) (d : ℕ)
    (h1 : low.length = nt.length) (h2 : high.length = nt.length)
    (hd : d < nt.length) :
    (genOffsetList T nt low high).getD d 0 = genOffset T nt low high d := by
  have hlen : d < (genOffsetList T nt low high).length := by
    rw [genOffsetList_length T nt low high h1 h2]; omega
  rw [List.getD_eq_getElem _ _ hlen]
  rw [genOffset, List.getD_eq_getElem _ _ (show d < nt.length from hd),
    List.getD_eq_getElem _ _ (show d < low.length by omega),
    List.getD_eq_getElem _ _ (show d < high.length by omega)]
  simp [genOffsetList, List.getElem_zipWith, List.getElem_zip]

lemma generate_getD_eq (T : ℕ) (nt : List ℕ) (low high : List ℚ) (i : ℕ)
    (hi : i < T) :
    (Tiles.generate T nt low high).getD i dTiles =
      { ranges :=
          (List.zipWith (fun l o => l - ((T - 1 - i : ℕ) : ℚ) * o) low
              (genOffsetList T nt low high)).zip
            (List.zipWith (fun h o => h + (i : ℚ) * o) high
              (genOffsetList T nt low high)),
        n_tiles := nt, state_components := none } := by
  simp only [Tiles.generate]
  rw [List.getD_eq_getElem _ _ (by simpa using hi)]
  simp

lemma generate_ranges_getD (T : ℕ) (nt : List ℕ) (low high : List ℚ)
    (i d : ℕ) (h1 : low.length = nt.length) (h2 : high.length = nt.length)
    (hi : i < T) (hd : d < nt.length) :
    ((Tiles.generate T nt low high).getD i dTiles).ranges.getD d (0, 0) =
      (low.getD d 0 - ((T - 1 - i : ℕ) : ℚ) * genOffset T nt low high d,
       high.getD d 0 + (i : ℚ) * genOffset T nt low high d) := by
  rw [generate_getD_eq T nt low high i hi]
  have holen : (genOffsetList T nt low high).length = nt.length :=
    genOffsetList_length T nt low high h1 h2
  have hzip : d < ((List.zipWith (fun l o => l - ((T - 1 - i : ℕ) : ℚ) * o) low
      (genOffsetList T nt low high)).zip
        (List.zipWith (fun h o => h + (i : ℚ) * o) high
          (genOffsetList T nt low high))).length := by
    simp only [List.length_zip, List.length_zipWith]
    omega
  rw [← genOffsetList_getD T nt low high d h1 h2 hd]
  rw [List.getD_eq_getElem _ _ hzip,
    List.getD_eq_getElem _ _ (show d < low.length by omega),
    List.getD_eq_getElem _ _ (show d < high.length by omega),
    List.getD_eq_getElem _ _ (show d < (genOffsetList T nt low high).length by omega)]
  simp [List.getElem_zip, List.getElem_zipWith]

/-! ## Claim theorems: tiling factory -/

/-- **C6.** For valid input (equal lengths, positive `n_tilings`), the factory
returns an ordered sequence of exactly `n_tilings` tile coders, where tiling
`i` uses the shared tile counts, no component selector, and per-dimension
range `[low - (n_tilings - 1 - i) * offset, high + i * offset]` with
`offset = (high - low) / (n_tiles * n_tilings - n_tilings + 1)`. -/
theorem generate_builds_offset_tilings (T : ℕ) (nt : List ℕ) (low high : List ℚ)
    (_hT : 0 < T) (h1 : low.length = nt.length) (h2 : high.length = nt.length) :
    (Tiles.generate T nt low high).length = T ∧
    (∀ i, i < T →
      ((Tiles.generate T nt low high).getD i dTiles).n_tiles = nt ∧
      ((Tiles.generate T nt low high).getD i dTiles).state_components = none ∧
      ((Tiles.generate T nt low high).getD i dTiles).ranges.length = nt.length ∧
      (∀ d, d < nt.length →
        ((Tiles.generate T nt low high).getD i dTiles).ranges.getD d (0, 0) =
          (low.getD d 0 - ((T - 1 - i : ℕ) : ℚ) * genOffset T nt low high d,
           high.getD d 0 + (i : ℚ) * genOffset T nt low high d))) := by
  constructor
  · simp [Tiles.generate]
  · intro i hi
    rw [generate_getD_eq T nt low high i hi]
    have holen : (genOffsetList T nt low high).length = nt.length :=
      genOffsetList_length T nt low high h1 h2
    refine ⟨rfl, rfl, ?_, ?_⟩
    · simp only [List.length_zip, List.length_zipWith]
      omega
    · intro d hd
      rw [← generate_getD_eq T nt low high i hi]
      exact generate_ranges_getD T nt low high i d h1 h2 hi hd

/-- Witness for C6 at `n_tilings = 2`, `n_tiles = [2]`, `low = [0]`,
`high = [2]`. -/
theorem generate_builds_offset_tilings_witness :
    (Tiles.generate 2 [2] [0] [2]).length = 2 :=
  (generate_builds_offset_tilings 2 [2] [0] [2] (by decide) rfl rfl).1

/-- **C7.** For `n_tilings > 1` and any dimension `d` with
`low[d] < high[d]` (and a positive tile count in that dimension), the computed
offset is strictly positive and the generated tilings' lower and upper range
bounds in dimension `d` are strictly increasing in the tiling index. -/
theorem generate_bounds_strict_mono (T : ℕ) (nt : List ℕ) (low high : List ℚ)
    (d i j : ℕ) (_hT : 1 < T) (h1 : low.length = nt.length)
    (h2 : high.length = nt.length) (hd : d < nt.length) (hij : i < j)
    (hj : j < T) (hN : 1 ≤ nt.getD d 0) (hlh : low.getD d 0 < high.getD d 0) :
    0 < genOffset T nt low high d ∧
    (((Tiles.generate T nt low high).getD i dTiles).ranges.getD d (0, 0)).1 <
      (((Tiles.generate T nt low high).getD j dTiles).ranges.getD d (0, 0)).1 ∧
    (((Tiles.generate T nt low high).getD i dTiles).ranges.getD d (0, 0)).2 <
      (((Tiles.generate T nt low high).getD j dTiles).ranges.getD d (0, 0)).2 := by
  have hoff : 0 < genOffset T nt low high d := by
    rw [genOffset]
    apply div_pos (by linarith)
    have hNq : (1 : ℚ) ≤ (nt.getD d 0 : ℚ) := by exact_mod_cast hN
    have hTq : (0 : ℚ) ≤ (T : ℚ) := by positivity
    nlinarith
  have hcast : ((T - 1 - j : ℕ) : ℚ) < ((T - 1 - i : ℕ) : ℚ) := by
    exact_mod_cast (show (T - 1 - j : ℕ) < (T - 1 - i : ℕ) by omega)
  have hcast2 : (i : ℚ) < (j : ℚ) := by exact_mod_cast hij
  refine ⟨hoff, ?_, ?_⟩
  · rw [generate_ranges_getD T nt low high i d h1 h2 (lt_trans hij hj) hd,
      generate_ranges_getD T nt low high j d h1 h2 hj hd]
    simp only
    nlinarith
  · rw [generate_ranges_getD T nt low high i d h1 h2 (lt_trans hij hj) hd,
      generate_ranges_getD T nt low high j d h1 h2 hj hd]
    simp only
    nlinarith

/-- Witness for C7 at `n_tilings = 2`, `n_tiles = [2]`, `low = [0]`,
`high = [2]`, tilings 0 and 1. -/
theorem generate_bounds_strict_mono_witness :
    0 < genOffset 2 [2] [0] [2] 0 :=
  (generate_bounds_strict_mono 2 [2] [0] [2] 0 0 1 (by decide) rfl rfl
    (by decide) (by decide) (by decide) (by decide) (by norm_num)).1

/-- Zipping with a function that ignores its second argument truncates the
first list to the zip length. -/
lemma zipWith_left : ∀ {α β : Type} (a : List α) (b : List β),
    List.zipWith (fun x _ => x) a b = a.take b.length
  | _, _, [], _ => by simp
  | _, _, _ :: _, [] => by simp
  | _, _, x :: xs, _ :: ys => by
    simp only [List.zipWith_cons_cons, List.length_cons, List.take_succ_cons]
    exact congrArg _ (zipWith_left xs ys)

/-- **C8.** With `n_tilings = 1` the factory produces exactly one tile coder
whose per-dimension range is exactly `[low[d], high[d]]` (the zero-indexed
tiling applies a zero shift), identical to a tile coder constructed directly
over `[low, high]` with the same tile counts. -/
theorem generate_single_tiling (nt : List ℕ) (low high : List ℚ)
    (h1 : low.length = nt.length) (h2 : high.length = nt.length)
    (_hN : ∀ N ∈ nt, 0 < N) :
    Tiles.generate 1 nt low high =
      [{ ranges := low.zip high, n_tiles := nt, state_components := none }] := by
  have holen : (genOffsetList 1 nt low high).length = nt.length :=
    genOffsetList_length 1 nt low high h1 h2
  have hf : (List.zipWith (fun l (o : ℚ) => l) low (genOffsetList 1 nt low high))
      = low := by
    rw [zipWith_left low (genOffsetList 1 nt low high), holen, ← h1,
      List.take_length]
  have hg : (List.zipWith (fun h (o : ℚ) => h) high (genOffsetList 1 nt low high))
      = high := by
    rw [zipWith_left high (genOffsetList 1 nt low high), holen, ← h2,
      List.take_length]
  simp only [Tiles.generate]
  rw [show List.range 1 = [0] from rfl]
  simp only [List.map_cons, List.map_nil, Nat.cast_zero, zero_mul, sub_zero,
    add_zero, Nat.sub_self, Nat.zero_sub]
  rw [hf, hg]

/-- Witness for C8 at `n_tiles = [2]`, `low = [0]`, `high = [2]`. -/
theorem generate_single_tiling_witness :
    Tiles.generate 1 [2] [0] [2] =
      [{ ranges := [((0 : ℚ), (2 : ℚ))], n_tiles := [2], state_components := none }] :=
  generate_single_tiling [2] [0] [2] rfl rfl (by decide)

/-! ## Claim theorems: ActionRegressor construction (C4) -/

/-- **C4, counterexample.** A 2-D `discrete_actions` array with zero rows does
NOT fail: construction succeeds, reads `action_dim = 1` from `shape[1]`, and
creates an empty sub-model list. -/
theorem init_zero_rows_succeeds :
    ({ shape := [0, 1], data := [] } : NDArray).shape.getD 0 1 = 0 ∧
    ActionRegressor.init (M := ℕ) 0 { shape := [0, 1], data := [] } =
      .ok (1, []) :=
  ⟨rfl, rfl⟩

/-- **C4, amended.** Construction fails (with an index error from reading
`shape[1]`) exactly when `discrete_actions` has fewer than two dimensions;
otherwise — including the zero-row case — it succeeds, records `shape[1]` as
the action dimension, and creates exactly one deep copy of the template model
per row (`shape[0]` copies, in order). -/
theorem init_ok_iff_two_dims {M : Type} (model : M) (da : NDArray) :
    ((∃ v, ActionRegressor.init model da = .ok v) ↔ 2 ≤ da.shape.length) ∧
    (∀ n d rest, da.shape = n :: d :: rest →
      ActionRegressor.init model da = .ok (d, List.replicate n model)) := by
  obtain ⟨shape, data⟩ := da
  match shape with
  | [] => simp [ActionRegressor.init]
  | [n] => simp [ActionRegressor.init]
  | n :: d :: rest =>
    refine ⟨?_, ?_⟩
    · simp only [ActionRegressor.init]
      constructor
      · intro
        simp
      · intro
        exact ⟨(d, List.replicate n model), rfl⟩
    · intro n' d' rest' h
      simp only [List.cons.injEq] at h
      obtain ⟨hn, hd, -⟩ := h
      subst hn; subst hd
      rfl

/-- Witness for C4's amended claim at a `2 × 3` action array. -/
theorem init_ok_iff_two_dims_witness :
    ActionRegressor.init (M := ℕ) 5 { shape := [2, 3], data := [] } =
      .ok (3, List.replicate 2 5) :=
  (init_ok_iff_two_dims 5 { shape := [2, 3], data := [] }).2 2 3 [] rfl

/-! ## Row-selection lemmas -/

/-- The head of a dropped list is the element at the drop position. -/
lemma getD_drop_zero : ∀ {α : Type} (l : List α) (n : ℕ) (d : α),
    (l.drop n).getD 0 d = l.getD n d
  | _, [], _, _ => by simp
  | _, _ :: _, 0, _ => rfl
  | _, _ :: xs, n + 1, d => by
    simp only [List.drop_succ_cons, List.getD_cons_succ]
    exact getD_drop_zero xs n d

/-- The row selection of `fit`/`predict` in closed form: row `r` is selected
iff its entry at column `length - action_dim` (the first of the trailing
`action_dim` columns) equals the first component of the action. -/
lemma matchIdxs_eq_filter (adim : ℕ) (action : List ℚ) (x : List (List ℚ)) :
    matchIdxs adim action x = (List.range x.length).filter (fun r =>
      decide ((x.getD r []).getD ((x.getD r []).length - adim) 0 =
        action.getD 0 0)) := by
  rw [matchIdxs]
  apply List.filter_congr
  intro r hr
  rw [List.mem_range] at hr
  rw [matchMask, List.getD_eq_getElem _ _ (by simpa using hr),
    List.getElem_map, List.getD_eq_getElem _ _ hr, getD_drop_zero]

/-- Membership in the row selection, in closed form. -/
lemma mem_matchIdxs (adim : ℕ) (action : List ℚ) (x : List (List ℚ)) (r : ℕ) :
    r ∈ matchIdxs adim action x ↔ r < x.length ∧
      (x.getD r []).getD ((x.getD r []).length - adim) 0 = action.getD 0 0 := by
  rw [matchIdxs_eq_filter]
  simp [List.mem_filter, List.mem_range]

/-! ## Claim theorems: ActionRegressor.fit frame property (C9) -/

/-- **C9, counterexample.** With `action_dim = 2` and actions
`[[1,2], [1,3]]`, the single batch row `[9, 1, 2]` element-wise carries action
`[1,2]` only — yet `fit` also mutates sub-model 1 (action `[1,3]`), because
the selection compares only the first trailing column and both actions share
first component 1.  So fitting rows of one action CAN change another
sub-model, and a sub-model with no (element-wise) matching row is NOT left
unchanged. -/
theorem fit_mutates_submodel_without_matching_row :
    (ActionRegressor.fit (fun (_ : List (List ℚ)) xs _ => xs)
        { discrete_actions := [[1, 2], [1, 3]], action_dim := 2,
          models := [[], []] }
        [[9, 1, 2]] [7]).models.getD 1 [] = [[9]] ∧
    specRowMatches 2 [1, 2] [9, 1, 2] = true ∧
    specRowMatches 2 [1, 3] [9, 1, 2] = false :=
  ⟨by decide, by decide, by decide⟩

/-- **C9, amended.** `fit` mutates sub-model `i` only when some row's entry in
the first trailing action column equals action `i`'s first component: if no
row of `x` matches action `i` on that first component, sub-model `i` is left
unchanged, and hence its subsequent predictions (which depend only on the
sub-model value) are unchanged as well. -/
theorem fit_preserves_unmatched_submodels {M : Type}
    (fitFn : M → List (List ℚ) → List ℚ → M) (ar : ActionRegressor M)
    (x : List (List ℚ)) (y : List ℚ) (i : ℕ) (m0 : M)
    (hlen : ar.models.length = ar.discrete_actions.length)
    (hi : i < ar.models.length)
    (hnomatch : ∀ r, r < x.length →
      (x.getD r []).getD ((x.getD r []).length - ar.action_dim) 0 ≠
        (ar.discrete_actions.getD i []).getD 0 0) :
    (ActionRegressor.fit fitFn ar x y).models.getD i m0 = ar.models.getD i m0 ∧
    (∀ (predictFn : M → List (List ℚ) → List ℚ) (rows : List (List ℚ)),
      predictFn ((ActionRegressor.fit fitFn ar x y).models.getD i m0) rows =
        predictFn (ar.models.getD i m0) rows) := by
  have hempty : matchIdxs ar.action_dim (ar.discrete_actions.getD i []) x = [] := by
    rw [List.eq_nil_iff_forall_not_mem]
    intro r hrmem
    rw [mem_matchIdxs] at hrmem
    exact hnomatch r hrmem.1 hrmem.2
  have h1 : (ActionRegressor.fit fitFn ar x y).models.getD i m0 =
      ar.models.getD i m0 := by
    have hzlen : i < (ar.models.zip ar.discrete_actions).length := by
      rw [List.length_zip]; omega
    rw [List.getD_eq_getElem _ _
      (show i < ar.discrete_actions.length by omega)] at hempty
    simp only [ActionRegressor.fit]
    rw [List.getD_eq_getElem _ _ (by simpa using hzlen),
      List.getD_eq_getElem _ _ hi]
    simp [List.getElem_zip, hempty]
  exact ⟨h1, fun predictFn rows => by rw [h1]⟩

/-- Witness for C9's amended claim: fitting a batch whose rows all carry
action `1` leaves sub-model 0 (action `0`) untouched. -/
theorem fit_preserves_unmatched_submodels_witness :
    (ActionRegressor.fit (fun (m : ℕ) _ _ => m + 1)
        { discrete_actions := [[0], [1]], action_dim := 1, models := [10, 20] }
        [[5, 1]] [7]).models.getD 0 0 =
      ({ discrete_actions := [[0], [1]], action_dim := 1, models := [10, 20] } :
          ActionRegressor ℕ).models.getD 0 0 :=
  (fit_preserves_unmatched_submodels (fun (m : ℕ) _ _ => m + 1)
    { discrete_actions := [[0], [1]], action_dim := 1, models := [10, 20] }
    [[5, 1]] [7] 0 0 rfl (by decide) (by decide)).1

/-! ## Claim theorems: ActionRegressor.fit row selection (C1) -/

/-- **C1, counterexample.** With `action_dim = 2` and actions
`[[0,0], [1,1]]`, the batch row `[5, 0, 99]` is element-wise equal to neither
action in its trailing two columns, yet `fit` selects it for sub-model 0
(the code keeps only column 0 of the trailing-column comparison) and fits
sub-model 0 on its leading columns `[5]` — the claim's "rows fitted are
exactly the element-wise matches, others skipped" is false. -/
theorem fit_matches_first_component_only :
    (ActionRegressor.fit (fun (_ : List (List ℚ)) xs _ => xs)
        { discrete_actions := [[0, 0], [1, 1]], action_dim := 2,
          models := [[], []] }
        [[5, 0, 99]] [7]).models.getD 0 [] = [[5]] ∧
    specRowMatches 2 [0, 0] [5, 0, 99] = false ∧
    specRowMatches 2 [1, 1] [5, 0, 99] = false :=
  ⟨by decide, by decide, by decide⟩

/-- **C1, amended.** For each action index `i`, `fit` selects the rows of `x`
whose entry in the FIRST trailing action column (column `length − action_dim`)
equals the FIRST component of action `i`; when that selection is non-empty,
sub-model `i` is replaced by fitting it on the selected rows' leading columns
(action columns stripped) against the corresponding `y` entries, and otherwise
(in particular for rows matching no action's first component, which are
silently skipped) sub-model `i` is unchanged. -/
theorem fit_submodel_update_characterization {M : Type}
    (fitFn : M → List (List ℚ) → List ℚ → M) (ar : ActionRegressor M)
    (x : List (List ℚ)) (y : List ℚ) (i : ℕ) (m0 : M)
    (hlen : ar.models.length = ar.discrete_actions.length)
    (hi : i < ar.models.length) :
    (ActionRegressor.fit fitFn ar x y).models.getD i m0 =
      (let action := ar.discrete_actions.getD i []
       let idxs := (List.range x.length).filter (fun r =>
         decide ((x.getD r []).getD ((x.getD r []).length - ar.action_dim) 0 =
           action.getD 0 0))
       if idxs = [] then ar.models.getD i m0
       else fitFn (ar.models.getD i m0)
         (idxs.map (fun r => (x.getD r []).take ((x.getD r []).length - ar.action_dim)))
         (idxs.map (fun r => y.getD r 0))) := by
  have hzlen : i < (ar.models.zip ar.discrete_actions).length := by
    rw [List.length_zip]; omega
  simp only [ActionRegressor.fit]
  rw [List.getD_eq_getElem _ _ (by simpa using hzlen)]
  simp only [List.getElem_map, List.getElem_zip]
  rw [← matchIdxs_eq_filter ar.action_dim (ar.discrete_actions.getD i []) x,
    List.getD_eq_getElem _ _ (show i < ar.discrete_actions.length by omega),
    List.getD_eq_getElem _ _ hi]
  simp only [leadCols, List.isEmpty_iff]

/-- Witness for C1's amended claim on a concrete regressor and batch: only the
row `[5, 1]` carries action `[1]`, so sub-model 1 (value 20, counting one
fitted row batch of one row and one target) becomes `20 + 1 + 1 = 22`. -/
theorem fit_submodel_update_characterization_witness :
    (ActionRegressor.fit (fun (m : ℕ) xs ys => m + xs.length + ys.length)
        { discrete_actions := [[0], [1]], action_dim := 1, models := [10, 20] }
        [[5, 1], [6, 0]] [7, 8]).models.getD 1 0 = 22 := by
  rw [fit_submodel_update_characterization
    (fun (m : ℕ) xs ys => m + xs.length + ys.length)
    { discrete_actions := [[0], [1]], action_dim := 1, models := [10, 20] }
    [[5, 1], [6, 0]] [7, 8] 1 0 rfl (by decide)]
  decide

/-! ## Lemmas about scatter and the predict loop (C5) -/

lemma scatter_foldl_length : ∀ (l : List (ℕ × ℚ)) (res : List ℚ),
    (l.foldl (fun r jv => r.set jv.1 jv.2) res).length = res.length
  | [], _ => rfl
  | jv :: l, res => by
    rw [List.foldl_cons, scatter_foldl_length l (res.set jv.1 jv.2),
      List.length_set]

lemma scatter_length (res : List ℚ) (idxs : List ℕ) (vals : List ℚ) :
    (scatter res idxs vals).length = res.length :=
  scatter_foldl_length _ _

lemma scatter_getD_not_mem : ∀ (idxs : List ℕ) (vals : List ℚ) (res : List ℚ)
    (r : ℕ) (d : ℚ), r ∉ idxs → (scatter res idxs vals).getD r d = res.getD r d
  | [], _, _, _, _, _ => rfl
  | _ :: _, [], _, _, _, _ => rfl
  | a :: as, v :: vs, res, r, d, h => by
    have h1 : r ≠ a := fun hra => h (hra ▸ List.mem_cons_self a as)
    have h2 : r ∉ as := fun hmem => h (List.mem_cons_of_mem _ hmem)
    rw [scatter, List.zip_cons_cons, List.foldl_cons,
      show (as.zip vs).foldl (fun r jv => r.set jv.1 jv.2) (res.set a v) =
        scatter (res.set a v) as vs from rfl,
      scatter_getD_not_mem as vs (res.set a v) r d h2,
      List.getD_eq_getElem?_getD, List.getD_eq_getElem?_getD,
      List.getElem?_set_ne (Ne.symm h1)]

lemma scatter_getD_at : ∀ (idxs : List ℕ) (vals : List ℚ) (res : List ℚ)
    (k r : ℕ) (d : ℚ), idxs.Nodup → k < idxs.length → k < vals.length →
    idxs.getD k 0 = r → r < res.length →
    (scatter res idxs vals).getD r d = vals.getD k d
  | [], _, _, _, _, _, _, hk, _, _, _ => absurd hk (by simp)
  | _ :: _, [], _, _, _, _, _, _, hkv, _, _ => absurd hkv (by simp)
  | a :: as, v :: vs, res, k, r, d, hnd, hk, hkv, hr, hres => by
    rw [scatter, List.zip_cons_cons, List.foldl_cons,
      show (as.zip vs).foldl (fun r jv => r.set jv.1 jv.2) (res.set a v) =
        scatter (res.set a v) as vs from rfl]
    match k with
    | 0 =>
      have ha : a = r := by simpa using hr
      subst ha
      have hnotmem : a ∉ as := (List.nodup_cons.1 hnd).1
      rw [scatter_getD_not_mem as vs _ a d hnotmem,
        List.getD_eq_getElem?_getD, List.getElem?_set_self (by simpa using hres)]
      rfl
    | k + 1 =>
      have hk' : k < as.length := by simpa using hk
      have hkv' : k < vs.length := by simpa using hkv
      have hr' : as.getD k 0 = r := by simpa using hr
      rw [scatter_getD_at as vs (res.set a v) k r d (List.nodup_cons.1 hnd).2
        hk' hkv' hr' (by simpa using hres)]
      rfl

lemma predictStep_length {M : Type} (pf : M → List (List ℚ) → List ℚ)
    (adim : ℕ) (x : List (List ℚ)) (res : List ℚ) (mi : M × List ℚ) :
    (predictStep pf adim x res mi).length = res.length := by
  simp only [predictStep]
  split
  · rfl
  · exact scatter_length _ _ _

lemma predictStep_getD_not_mem {M : Type} (pf : M → List (List ℚ) → List ℚ)
    (adim : ℕ) (x : List (List ℚ)) (res : List ℚ) (mi : M × List ℚ)
    (r : ℕ) (d : ℚ) (h : r ∉ matchIdxs adim mi.2 x) :
    (predictStep pf adim x res mi).getD r d = res.getD r d := by
  simp only [predictStep]
  split
  · rfl
  · exact scatter_getD_not_mem _ _ _ _ _ h

lemma foldl_predictStep_length {M : Type} (pf : M → List (List ℚ) → List ℚ)
    (adim : ℕ) (x : List (List ℚ)) :
    ∀ (pl : List (M × List ℚ)) (res : List ℚ),
    (pl.foldl (predictStep pf adim x) res).length = res.length
  | [], _ => rfl
  | mi :: pl, res => by
    rw [List.foldl_cons,
      foldl_predictStep_length pf adim x pl (predictStep pf adim x res mi),
      predictStep_length]

lemma foldl_predictStep_not_mem {M : Type} (pf : M → List (List ℚ) → List ℚ)
    (adim : ℕ) (x : List (List ℚ)) (r : ℕ) (d : ℚ) :
    ∀ (pl : List (M × List ℚ)) (res : List ℚ),
    (∀ mi ∈ pl, r ∉ matchIdxs adim mi.2 x) →
    (pl.foldl (predictStep pf adim x) res).getD r d = res.getD r d
  | [], _, _ => rfl
  | mi :: pl, res, h => by
    rw [List.foldl_cons,
      foldl_predictStep_not_mem pf adim x r d pl (predictStep pf adim x res mi)
        (fun e he => h e (List.mem_cons_of_mem _ he)),
      predictStep_getD_not_mem pf adim x res mi r d (h mi (List.mem_cons_self _ _))]

lemma matchIdxs_nodup (adim : ℕ) (action : List ℚ) (x : List (List ℚ)) :
    (matchIdxs adim action x).Nodup := by
  rw [matchIdxs]
  exact List.Nodup.filter _ (List.nodup_range _)

/-- A filtered range splits at any selected element `r`, with the elements
below `r` in front. -/
lemma filter_range_decomp (p : ℕ → Bool) (n r : ℕ) (hr : r < n)
    (hp : p r = true) :
    ∃ B, (List.range n).filter p = ((List.range r).filter p) ++ r :: B := by
  have hn : n = r + (1 + (n - r - 1)) := by omega
  refine ⟨((List.range (n - r - 1)).map (fun t => r + (1 + t))).filter p, ?_⟩
  conv_lhs => rw [hn]
  rw [List.range_add, List.range_add 1 (n - r - 1),
    show List.range 1 = [0] from rfl, List.map_append, List.map_map,
    List.filter_append]
  congr 1
  simp [hp, Function.comp, Nat.add_assoc]

/-! ## Claim theorems: ActionRegressor.predict (C5) -/

/-- **C5, counterexample.** With `action_dim = 2` and single action `[0, 0]`,
the row `[5, 0, 99]` matches no configured action element-wise, so the claim
requires its output entry to be exactly 0 — but the code matches on the first
trailing column only and returns the sub-model's prediction 7. -/
theorem predict_nonzero_for_unmatched_row :
    ActionRegressor.predict (fun (m : ℚ) rows => rows.map (fun _ => m))
        { discrete_actions := [[0, 0]], action_dim := 2, models := [7] }
        [[5, 0, 99]] = [7] ∧
    specRowMatches 2 [0, 0] [5, 0, 99] = false :=
  ⟨by decide, by decide⟩

/-- **C5, amended.** `predict` returns a fresh array (no state is mutated) of
the same row count as `x`, initialized to zero; a row whose entry in the first
trailing action column differs from every configured action's first component
keeps exactly 0; and when the actions' first components are pairwise distinct
and the sub-models' `predict` is length-preserving, a row `r` matching action
`i` receives entry `rank(r)` of sub-model `i`'s prediction on the leading
columns of the selected rows, where `rank(r)` counts the selected rows before
`r` (output ordering therefore matches input row ordering). -/
theorem predict_first_component_dispatch {M : Type}
    (predictFn : M → List (List ℚ) → List ℚ)
    (ar : ActionRegressor M) (x : List (List ℚ)) :
    (ActionRegressor.predict predictFn ar x).length = x.length ∧
    (∀ r : ℕ, (∀ a ∈ ar.discrete_actions,
        (x.getD r []).getD ((x.getD r []).length - ar.action_dim) 0 ≠
          a.getD 0 0) →
      (ActionRegressor.predict predictFn ar x).getD r 0 = 0) ∧
    (∀ (m0 : M) (i r : ℕ),
      ar.models.length = ar.discrete_actions.length →
      (ar.discrete_actions.map (fun a => a.getD 0 0)).Nodup →
      (∀ (m : M) (rows : List (List ℚ)), (predictFn m rows).length = rows.length) →
      i < ar.models.length → r < x.length →
      (x.getD r []).getD ((x.getD r []).length - ar.action_dim) 0 =
        (ar.discrete_actions.getD i []).getD 0 0 →
      (ActionRegressor.predict predictFn ar x).getD r 0 =
        (predictFn (ar.models.getD i m0)
          ((matchIdxs ar.action_dim (ar.discrete_actions.getD i []) x).map
            (fun s => leadCols ar.action_dim (x.getD s [])))).getD
          (((List.range r).filter (fun s =>
            (matchMask ar.action_dim (ar.discrete_actions.getD i []) x).getD
              s false)).length) 0) := by
  refine ⟨?_, ?_, ?_⟩
  · rw [ActionRegressor.predict, foldl_predictStep_length,
      List.length_replicate]
  · intro r hne
    rw [ActionRegressor.predict, foldl_predictStep_not_mem]
    · rw [List.getD_eq_getElem?_getD, List.getElem?_replicate]
      split <;> rfl
    · intro mi hmi hrmem
      rw [mem_matchIdxs] at hrmem
      exact hne mi.2 (List.of_mem_zip hmi).2 hrmem.2
  · intro m0 i r hlen hnodup hwf hi hr hmatch
    have hida : i < ar.discrete_actions.length := by omega
    set pl := ar.models.zip ar.discrete_actions with hpl
    have hpllen : pl.length = ar.models.length := by
      rw [hpl, List.length_zip]; omega
    have hipl : i < pl.length := by omega
    have hplit : pl = pl.take i ++ pl[i] :: pl.drop (i + 1) := by
      conv_lhs => rw [← List.take_append_drop i pl]
      rw [List.drop_eq_getElem_cons hipl]
    have hplig : pl[i] = (ar.models[i], ar.discrete_actions[i]) :=
      List.getElem_zip
    rw [List.getD_eq_getElem _ _ hida] at hmatch
    rw [ActionRegressor.predict, ← hpl]
    conv_lhs => rw [hplit]
    rw [List.foldl_append, List.foldl_cons]
    have hsuffix : ∀ mi ∈ pl.drop (i + 1), r ∉ matchIdxs ar.action_dim mi.2 x := by
      intro mi hmi hrmem
      obtain ⟨j, hj, hje⟩ := List.getElem_of_mem hmi
      rw [List.getElem_drop] at hje
      have hj' : i + 1 + j < pl.length := by
        rw [List.length_drop] at hj; omega
      have hj'' : i + 1 + j < ar.discrete_actions.length := by omega
      have hj3 : i + 1 + j < ar.models.length := by omega
      have hg : pl[i + 1 + j] =
          (ar.models[i + 1 + j], ar.discrete_actions[i + 1 + j]) :=
        List.getElem_zip
      have hmi2 : mi.2 = ar.discrete_actions[i + 1 + j] := by
        rw [← hje, hg]
      rw [mem_matchIdxs] at hrmem
      have hb1 : i + 1 + j <
          (ar.discrete_actions.map (fun a => a.getD 0 0)).length := by
        rw [List.length_map]; omega
      have hb2 : i < (ar.discrete_actions.map (fun a => a.getD 0 0)).length := by
        rw [List.length_map]; omega
      have heq : (ar.discrete_actions.map (fun a => a.getD 0 0))[i + 1 + j] =
          (ar.discrete_actions.map (fun a => a.getD 0 0))[i] := by
        rw [List.getElem_map, List.getElem_map]
        rw [hmi2] at hrmem
        rw [← hrmem.2, hmatch]
      have := (List.Nodup.getElem_inj_iff hnodup).1 heq
      omega
    rw [foldl_predictStep_not_mem _ _ _ _ _ _ _ hsuffix]
    have hresP : ((pl.take i).foldl (predictStep predictFn ar.action_dim x)
        (List.replicate x.length 0)).length = x.length := by
      rw [foldl_predictStep_length, List.length_replicate]
    set resP := (pl.take i).foldl (predictStep predictFn ar.action_dim x)
      (List.replicate x.length 0) with hresPdef
    rw [hplig]
    have hp : (matchMask ar.action_dim ar.discrete_actions[i] x).getD r false
        = true := by
      rw [matchMask, List.getD_eq_getElem _ _ (by simpa using hr),
        List.getElem_map, decide_eq_true_iff, getD_drop_zero,
        ← List.getD_eq_getElem x _ hr]
      exact hmatch
    obtain ⟨B, hB⟩ := filter_range_decomp
      (fun s => (matchMask ar.action_dim ar.discrete_actions[i] x).getD s false)
      x.length r hr hp
    have hidxs : matchIdxs ar.action_dim ar.discrete_actions[i] x =
        ((List.range r).filter (fun s =>
          (matchMask ar.action_dim ar.discrete_actions[i] x).getD s false)) ++
          r :: B := by
      rw [matchIdxs]; exact hB
    set A := (List.range r).filter (fun s =>
      (matchMask ar.action_dim ar.discrete_actions[i] x).getD s false) with hA
    have hrmem : r ∈ matchIdxs ar.action_dim ar.discrete_actions[i] x := by
      rw [hidxs]
      exact List.mem_append_right _ (List.mem_cons_self _ _)
    have hnonempty : (matchIdxs ar.action_dim ar.discrete_actions[i] x).isEmpty
        = false := by
      rw [List.isEmpty_eq_false]
      exact List.ne_nil_of_mem hrmem
    simp only [predictStep, hnonempty, Bool.false_eq_true, if_false]
    have hklen : A.length <
        (matchIdxs ar.action_dim ar.discrete_actions[i] x).length := by
      rw [hidxs, List.length_append, List.length_cons]
      omega
    have hgetk : (matchIdxs ar.action_dim ar.discrete_actions[i] x).getD
        A.length 0 = r := by
      rw [hidxs, List.getD_eq_getElem?_getD,
        List.getElem?_append_right (le_refl A.length), Nat.sub_self]
      simp
    rw [scatter_getD_at _ _ _ A.length r 0
      (matchIdxs_nodup _ _ _) hklen (by rw [hwf, List.length_map]; exact hklen)
      hgetk (by rw [hresP]; exact hr)]
    rw [List.getD_eq_getElem _ _ hida, List.getD_eq_getElem _ _ hi]

/-- Witness for C5's amended claim: on the batch
`[[5,0],[6,1],[7,9]]` with actions `[[0],[1]]` and constant sub-models, row 1
carries action `[1]` and receives sub-model 1's prediction 4. -/
theorem predict_first_component_dispatch_witness :
    (ActionRegressor.predict (fun (m : ℚ) rows => rows.map (fun _ => m))
        { discrete_actions := [[0], [1]], action_dim := 1, models := [3, 4] }
        [[5, 0], [6, 1], [7, 9]]).getD 1 0 = 4 := by
  rw [(predict_first_component_dispatch (fun (m : ℚ) rows => rows.map (fun _ => m))
      { discrete_actions := [[0], [1]], action_dim := 1, models := [3, 4] }
      [[5, 0], [6, 1], [7, 9]]).2.2 3 1 1 rfl (by decide)
      (by intro m rows; rw [List.length_map]) (by decide) (by decide) (by decide)]
  decide

end Mushroom
